import Mathlib

/-!
Shallow embedding of the brute-force burst-detection program (`src/report.py`).

Timestamps are modelled as `Int` seconds (the Python code works with
`datetime` values, on which only ordering and subtraction are used, together
with `timedelta(minutes=max_minutes)`, i.e. `60 * max_minutes` seconds).
The mutable per-ip dictionary is modelled as an insertion-ordered association
list; the in-place `times.sort()` mutation is made explicit by having
`brute_force` also return the post-call contents of its input mapping.
-/

/-- One detected incident, mirroring the dict
`\x7b"ip": ip, "count": count, "first": times[i], "last": times[j]\x7d`
built in `brute_force` (`first`/`last` kept as instants rather than
iso-format strings). -/
structure Incident where
  ip : String
  count : Nat
  first : Int
  last : Int
  deriving DecidableEq, Repr

/-- List index access `times[k]` (all uses in the source are in bounds). -/
def nth (ts : List Int) (k : Nat) : Int := ts.getD k 0

/-- Python list ascending sort (`times.sort()`). -/
def sortInt (l : List Int) : List Int := List.insertionSort (· ≤ ·) l

/-- The inner while loop of `brute_force`:
`while j + 1 < n and (times[j + 1] - times[i]) <= window: j += 1`,
returning the final value of `j`. -/
def grow (w : Int) (ts : List Int) (i j : Nat) : Nat :=
  if h : j + 1 < ts.length ∧ nth ts (j + 1) - nth ts i ≤ w then
    grow w ts i (j + 1)
  else j
termination_by ts.length - j
decreasing_by omega

/-- Index ranges `(i, j)` of the clusters that the outer while loop of
`brute_force` turns into incidents, for one origin's (already sorted)
timestamp list, starting the scan at index `i`. -/
def detectRanges (w thr : Int) (ts : List Int) (i : Nat) : List (Nat × Nat) :=
  if i < ts.length then
    if ((grow w ts i i - i + 1 : Nat) : Int) ≥ thr then
      (i, grow w ts i i) :: detectRanges w thr ts (grow w ts i i + 1)
    else
      detectRanges w thr ts (i + 1)
  else []
termination_by ts.length - i
decreasing_by
  · have hle : ∀ j, j ≤ grow w ts i j := by
      apply grow.induct w ts i (fun j => j ≤ grow w ts i j)
      · intro j hc ihj
        rw [grow]
        rw [dif_pos hc]
        omega
      · intro j hc
        rw [grow]
        rw [dif_neg hc]
    have := hle i
    omega
  · omega

/-- The outer while loop of `brute_force` for one origin: from index `i`,
repeatedly expand a cluster with the inner loop, emit an incident when the
cluster size reaches the threshold (advancing past the cluster), otherwise
advance by one. -/
def detectLoop (w thr : Int) (ip : String) (ts : List Int) (i : Nat) : List Incident :=
  if i < ts.length then
    if ((grow w ts i i - i + 1 : Nat) : Int) ≥ thr then
      ⟨ip, grow w ts i i - i + 1, nth ts i, nth ts (grow w ts i i)⟩ ::
        detectLoop w thr ip ts (grow w ts i i + 1)
    else
      detectLoop w thr ip ts (i + 1)
  else []
termination_by ts.length - i
decreasing_by
  · have hle : ∀ j, j ≤ grow w ts i j := by
      apply grow.induct w ts i (fun j => j ≤ grow w ts i j)
      · intro j hc ihj
        rw [grow]
        rw [dif_pos hc]
        omega
      · intro j hc
        rw [grow]
        rw [dif_neg hc]
    have := hle i
    omega
  · omega

/-- Per-origin burst detection as `brute_force` performs it: sort the
timestamp list, then run the scan from index `0`. -/
def detectOne (w thr : Int) (ip : String) (ts : List Int) : List Incident :=
  detectLoop w thr ip (sortInt ts) 0

/-- `brute_force(per_ip_timestamps, max_minutes, threshold)`.

The first component is the returned `sus_incidents` list; the second
component models the post-call contents of the (mutated) input mapping:
`times.sort()` sorts each origin's list in place, so after the call every
list in `per_ip_timestamps` is sorted.  The window is
`timedelta(minutes=max_minutes)`, i.e. `60 * max_minutes` seconds. -/
def brute_force (m : List (String × List Int)) (max_minutes threshold : Int) :
    List Incident × List (String × List Int) :=
  match m with
  | [] => ([], [])
  | p :: rest =>
    (detectLoop (60 * max_minutes) threshold p.1 (sortInt p.2) 0 ++
        (brute_force rest max_minutes threshold).1,
      (p.1, sortInt p.2) :: (brute_force rest max_minutes threshold).2)

/-- Fuel-counted version of the inner while loop (`none` = fuel exhausted
before the loop finished). -/
def growFuel (w : Int) (ts : List Int) (i : Nat) : Nat → Nat → Option Nat
  | 0, _ => none
  | fuel + 1, j =>
    if j + 1 < ts.length ∧ nth ts (j + 1) - nth ts i ≤ w then
      growFuel w ts i fuel (j + 1)
    else some j

/-- Fuel-counted version of the outer while loop of `brute_force` (`none` =
some loop failed to finish within the supplied fuel). -/
def detectLoopFuel (w thr : Int) (ip : String) (ts : List Int) : Nat → Nat → Option (List Incident)
  | 0, _ => none
  | fuel + 1, i =>
    if i < ts.length then
      match growFuel w ts i (ts.length + 1) i with
      | none => none
      | some j =>
        if ((j - i + 1 : Nat) : Int) ≥ thr then
          match detectLoopFuel w thr ip ts fuel (j + 1) with
          | none => none
          | some rest => some (⟨ip, j - i + 1, nth ts i, nth ts j⟩ :: rest)
        else detectLoopFuel w thr ip ts fuel (i + 1)
    else some []

/-- The window argument `main` passes to `brute_force`
(`max_minutes=10`). -/
def MAIN_MAX_MINUTES : Int := 10

/-- The threshold argument `main` passes to `brute_force`
(`threshold=5`). -/
def MAIN_THRESHOLD : Int := 5

/-- Detection exactly as `main` invokes it:
`brute_force(per_ip_timestamps, max_minutes=10, threshold=5)`. -/
def mainIncidents (m : List (String × List Int)) : List Incident :=
  (brute_force m MAIN_MAX_MINUTES MAIN_THRESHOLD).1

/-- One step of the totals loop in `main`:
`summary[inc["ip"]] = summary.get(inc["ip"], 0) + inc["count"]`, on an
insertion-ordered association list (Python dicts preserve insertion order:
a new origin is appended at the end). -/
def addIncident (s : List (String × Nat)) (inc : Incident) : List (String × Nat) :=
  match s with
  | [] => [(inc.ip, inc.count)]
  | q :: rest =>
    if q.1 = inc.ip then (q.1, q.2 + inc.count) :: rest
    else q :: addIncident rest inc

/-- The `summary` dict of `main` built from the incident list (origins in
the order of their first incident). -/
def buildSummary (incs : List Incident) : List (String × Nat) :=
  incs.foldl addIncident []

/-- The `summary` value `main` goes on to rank, including the fallback:
`if not summary and per_ip_timestamps: summary = .. len(times) ..`.  Note
the result carries no indication of which branch produced it. -/
def summarize (incs : List Incident) (perIp : List (String × List Int)) :
    List (String × Nat) :=
  if buildSummary incs = [] ∧ perIp ≠ [] then perIp.map (fun p => (p.1, p.2.length))
  else buildSummary incs

/-- Stable insertion before the first entry whose total does not exceed the
new one: entries with strictly greater totals stay in front, entries with
equal totals stay behind, exactly the ordering of Python's stable
`sorted(summary.items(), key=lambda x: x[1], reverse=True)`. -/
def insertDesc (x : String × Nat) : List (String × Nat) → List (String × Nat)
  | [] => [x]
  | y :: ys => if y.2 ≤ x.2 then x :: y :: ys else y :: insertDesc x ys

/-- `sorted(summary.items(), key=lambda x: x[1], reverse=True)`. -/
def sortDesc : List (String × Nat) → List (String × Nat)
  | [] => []
  | x :: xs => insertDesc x (sortDesc xs)

/-- The `top_attackers` ranking of `main`. -/
def top_attackers (incs : List Incident) (perIp : List (String × List Int)) :
    List (String × Nat) :=
  sortDesc (summarize incs perIp)

/-- The `event_type` strings of `parse_auth_line`. -/
inductive EvType where
  | failed
  | accepted
  | other
  deriving DecidableEq, Repr

/-- The whitespace characters Python's `str.split()` splits on (ASCII). -/
def isSpaceCh (c : Char) : Bool :=
  c = ' ' || c = Char.ofNat 9 || c = Char.ofNat 10 ||
    c = Char.ofNat 13 || c = Char.ofNat 11 || c = Char.ofNat 12

/-- Accumulator worker for `line.split()`. -/
def splitWsAux : List Char → List Char → List (List Char)
  | [], acc => if acc = [] then [] else [acc.reverse]
  | c :: cs, acc =>
    if isSpaceCh c then
      if acc = [] then splitWsAux cs [] else acc.reverse :: splitWsAux cs []
    else splitWsAux cs (c :: acc)

/-- `line.split()`: split on runs of whitespace, discarding empty pieces. -/
def splitWs (l : List Char) : List (List Char) := splitWsAux l []

/-- Whether the first list is an initial segment of the second. -/
def startsL : List Char → List Char → Bool
  | [], _ => true
  | _ :: _, [] => false
  | a :: as, b :: bs => a = b && startsL as bs

/-- Python's substring test `needle in haystack`. -/
def containsL (needle : List Char) : List Char → Bool
  | [] => needle.isEmpty
  | c :: cs => startsL needle (c :: cs) || containsL needle cs

/-- Split on `:` keeping empty pieces (worker). -/
def splitColonAux : List Char → List Char → List (List Char)
  | [], acc => [acc.reverse]
  | c :: cs, acc =>
    if c = ':' then acc.reverse :: splitColonAux cs []
    else splitColonAux cs (c :: acc)

/-- Split on `:` keeping empty pieces, for the `%H:%M:%S` field. -/
def splitColon (l : List Char) : List (List Char) := splitColonAux l []

def isDigitCh (c : Char) : Bool := '0' ≤ c && c ≤ '9'

/-- Numeric value of a digit string. -/
def digitsVal (l : List Char) : Nat := l.foldl (fun a c => a * 10 + (c.toNat - 48)) 0

/-- One or two digits, as the `%d`/`%H`/`%M`/`%S` patterns accept. -/
def isNum12 (l : List Char) : Bool :=
  (l.length = 1 || l.length = 2) && l.all isDigitCh

/-- The month abbreviations of `%b` (C locale); matching is
case-insensitive. -/
def monthAbbrevs : List String :=
  [r"jan", r"feb", r"mar", r"apr", r"may", r"jun",
    r"jul", r"aug", r"sep", r"oct", r"nov", r"dec"]

/-- Case-insensitive `%b` month match over the whole token. -/
def monthNum (tok : List Char) : Option Nat :=
  let k := monthAbbrevs.findIdx (fun s => s.toList == tok.map Char.toLower)
  if k < monthAbbrevs.length then some (k + 1) else none

/-- Days in each month of 2025 (not a leap year). -/
def daysInMonth2025 (m : Nat) : Nat :=
  [31, 28, 31, 30, 31, 30, 31, 31, 30, 31, 30, 31].getD (m - 1) 0

/-- Days of 2025 before the first of each month. -/
def daysBefore2025 (m : Nat) : Nat :=
  [0, 31, 59, 90, 120, 151, 181, 212, 243, 273, 304, 334].getD (m - 1) 0

/-- The `%d` day-of-month pattern: one or two digits, value 1–31 (calendar
validity against the month is checked afterwards, as `datetime` does). -/
def parseDay (tok : List Char) : Option Nat :=
  if isNum12 tok = true ∧ 1 ≤ digitsVal tok ∧ digitsVal tok ≤ 31 then
    some (digitsVal tok)
  else none

/-- The `%H:%M:%S` pattern over the whole third token.  Seconds 60 and 61
match `%S` but are rejected by the `datetime` constructor (`ValueError`,
caught by `parse_auth_line`), so they too produce `none`. -/
def parseTime (tok : List Char) : Option (Nat × Nat × Nat) :=
  match splitColon tok with
  | [h, m, s] =>
    if isNum12 h = true ∧ digitsVal h ≤ 23 ∧ isNum12 m = true ∧ digitsVal m ≤ 59 ∧
        isNum12 s = true ∧ digitsVal s ≤ 59 then
      some (digitsVal h, digitsVal m, digitsVal s)
    else none
  | _ => none

/-- `datetime.strptime(f"2025 ..", "%Y %b %d %H:%M:%S")` over the first
three whitespace tokens, as seconds since the start of 2025; `none` models
the raised `ValueError` (which `parse_auth_line` catches). -/
def parseTs (t0 t1 t2 : List Char) : Option Int :=
  match monthNum t0, parseDay t1, parseTime t2 with
  | some mo, some d, some hms =>
    if d ≤ daysInMonth2025 mo then
      some ((((daysBefore2025 mo + (d - 1)) * 24 + hms.1) * 60 + hms.2.1) * 60 +
        hms.2.2 : Nat)
    else none
  | _, _, _ => none

def isStripCh (c : Char) : Bool := c = ',' || c = ';'

/-- Python `ip_candidate.strip(",;")`: removes the characters from BOTH
ends of the token. -/
def stripBoth (l : List Char) : List Char :=
  ((l.dropWhile isStripCh).reverse.dropWhile isStripCh).reverse

/-- The strip operation exactly as claim C6 words it — only TRAILING `,`
and `;` removed, leading characters preserved — kept separate so it can be
compared against what the code computes. -/
def stripTrailingOnly (l : List Char) : List Char :=
  (l.reverse.dropWhile isStripCh).reverse

def failedPat : String := "Failed password"

def acceptedPat1 : String := "Accepted password"

def acceptedPat2 : String := "Accepted publickey"

def spaceFrom : String := " from "

def fromTok : String := "from"

/-- `parse_auth_line(line)`, returning the `(timestamp, ip, event_type)`
triple.  The early returns for fewer than three tokens and for a failed
timestamp parse both yield `(None, None, "other")`; otherwise the event
type is classified by substring tests on the whole line, and the ip is the
token after the first `"from"` token (stripped of `,`/`;` at both ends),
guarded by the substring test `" from " in line`. -/
def parse_auth_line (line : String) : Option Int × Option String × EvType :=
  if (splitWs line.toList).length < 3 then (none, none, EvType.other)
  else
    match parseTs ((splitWs line.toList).getD 0 []) ((splitWs line.toList).getD 1 [])
        ((splitWs line.toList).getD 2 []) with
    | none => (none, none, EvType.other)
    | some ts =>
      (some ts,
        if containsL spaceFrom.toList line.toList then
          if (splitWs line.toList).findIdx (fun t => t == fromTok.toList) + 1 <
              (splitWs line.toList).length then
            some (String.mk (stripBoth ((splitWs line.toList).getD
              ((splitWs line.toList).findIdx (fun t => t == fromTok.toList) + 1) [])))
          else none
        else none,
        if containsL failedPat.toList line.toList then EvType.failed
        else if containsL acceptedPat1.toList line.toList ||
            containsL acceptedPat2.toList line.toList then EvType.accepted
        else EvType.other)

/-- The token after the first `"from"` token, if one follows it. -/
def originScan : List (List Char) → Option (List Char)
  | [] => none
  | t :: rest => if t == fromTok.toList then rest.head? else originScan rest

/-- Origin extraction as the amended C6 states it: when the raw line
contains the substring `" from "`, the origin is the token following the
first `"from"` token with leading AND trailing `,` and `;` characters
stripped; it is absent when `"from"` is the last token or the substring is
missing. -/
def extractOrigin (line : String) : Option String :=
  if containsL spaceFrom.toList line.toList then
    match originScan (splitWs line.toList) with
    | some tok => some (String.mk (stripBoth tok))
    | none => none
  else none

/-- A failed-password line whose origin token carries a LEADING comma. -/
def cexLine : String :=
  "Mar 10 13:58:01 host1 sshd: Failed password for root from ,1.2.3.4 port 22 ssh2"

/-- Scenario E of the spec. -/
def lineE : String :=
  "Mar 10 13:58:01 host1 sshd[1023]: Failed password for invalid user admin from 203.0.113.45 port 52344 ssh2"

def emptyLine : String := ""

theorem grow_eq (w : Int) (ts : List Int) (i j : Nat) :
    grow w ts i j =
      if j + 1 < ts.length ∧ nth ts (j + 1) - nth ts i ≤ w then grow w ts i (j + 1)
      else j := by
  rw [grow]
  split
  next h => rfl
  next h => rfl

theorem le_grow (w : Int) (ts : List Int) (i : Nat) : ∀ j, j ≤ grow w ts i j := by
  apply grow.induct w ts i (fun j => j ≤ grow w ts i j)
  · intro j h ih
    rw [grow_eq, if_pos h]
    omega
  · intro j h
    rw [grow_eq, if_neg h]

theorem grow_lt_length (w : Int) (ts : List Int) (i : Nat) :
    ∀ j, j < ts.length → grow w ts i j < ts.length := by
  apply grow.induct w ts i (fun j => j < ts.length → grow w ts i j < ts.length)
  · intro j h ih hj
    rw [grow_eq, if_pos h]
    exact ih h.1
  · intro j h hj
    rw [grow_eq, if_neg h]
    exact hj

/-- Every index reached by the inner loop satisfied the window test against
the anchor `i`. -/
theorem grow_window (w : Int) (ts : List Int) (i : Nat) :
    ∀ j k, j < k → k ≤ grow w ts i j → nth ts k - nth ts i ≤ w ∧ k < ts.length := by
  apply grow.induct w ts i
    (fun j => ∀ k, j < k → k ≤ grow w ts i j → nth ts k - nth ts i ≤ w ∧ k < ts.length)
  · intro j h ih k hk1 hk2
    rw [grow_eq, if_pos h] at hk2
    rcases Nat.lt_or_ge (j + 1) k with hlt | hge
    · exact ih k hlt hk2
    · have : k = j + 1 := by omega
      subst this
      exact ⟨h.2, h.1⟩
  · intro j h k hk1 hk2
    rw [grow_eq, if_neg h] at hk2
    omega

/-- If every index in `(j, m]` passes the window test against anchor `i`,
the inner loop starting at `j` reaches at least `m`. -/
theorem grow_reach (w : Int) (ts : List Int) (i : Nat) :
    ∀ d j m, m - j ≤ d → j ≤ m → m < ts.length →
      (∀ k, j < k → k ≤ m → nth ts k - nth ts i ≤ w) → m ≤ grow w ts i j := by
  intro d
  induction d with
  | zero =>
    intro j m hd hjm hm hall
    have : j = m := by omega
    subst this
    exact le_grow w ts i j
  | succ d ih =>
    intro j m hd hjm hm hall
    rcases Nat.eq_or_lt_of_le hjm with heq | hlt
    · subst heq
      exact le_grow w ts i j
    · have hcond : j + 1 < ts.length ∧ nth ts (j + 1) - nth ts i ≤ w :=
        ⟨by omega, hall (j + 1) (by omega) (by omega)⟩
      rw [grow_eq, if_pos hcond]
      exact ih (j + 1) m (by omega) (by omega) hm (fun k hk1 hk2 => hall k (by omega) hk2)

theorem nth_eq_get (ts : List Int) (k : Nat) (h : k < ts.length) :
    nth ts k = ts.get ⟨k, h⟩ := by
  simp [nth, List.getD_eq_getElem?_getD, List.getElem?_eq_getElem h]

/-- On a sorted list, `nth` is monotone in the index. -/
theorem nth_mono (ts : List Int) (hs : ts.Pairwise (· ≤ ·)) {a b : Nat}
    (hab : a ≤ b) (hb : b < ts.length) : nth ts a ≤ nth ts b := by
  rcases Nat.eq_or_lt_of_le hab with heq | hlt
  · subst heq
    exact le_refl _
  · rw [nth_eq_get ts a (lt_trans hlt hb), nth_eq_get ts b hb]
    exact List.pairwise_iff_get.mp hs ⟨a, lt_trans hlt hb⟩ ⟨b, hb⟩ hlt

/-- On a sorted list, a later anchor lets the inner loop reach at least as
far: `grow` is monotone in the anchor position. -/
theorem grow_mono (w : Int) (ts : List Int) (hs : ts.Pairwise (· ≤ ·))
    (a b : Nat) (hab : a ≤ b) (hb : b < ts.length) :
    grow w ts a a ≤ grow w ts b b := by
  have hg : grow w ts a a < ts.length :=
    grow_lt_length w ts a a (lt_of_le_of_lt hab hb)
  rcases Nat.lt_or_ge b (grow w ts a a) with hlt | hge
  · refine grow_reach w ts b ts.length b (grow w ts a a) (by omega) (by omega) hg ?_
    intro k hk1 hk2
    have hwin := grow_window w ts a a k (by omega) hk2
    have hmono : nth ts a ≤ nth ts b := nth_mono ts hs hab hb
    omega
  · exact le_trans hge (le_grow w ts b b)

theorem detectRanges_eq (w thr : Int) (ts : List Int) (i : Nat) :
    detectRanges w thr ts i =
      if i < ts.length then
        if ((grow w ts i i - i + 1 : Nat) : Int) ≥ thr then
          (i, grow w ts i i) :: detectRanges w thr ts (grow w ts i i + 1)
        else
          detectRanges w thr ts (i + 1)
      else [] := by
  rw [detectRanges]

theorem detectLoop_eq (w thr : Int) (ip : String) (ts : List Int) (i : Nat) :
    detectLoop w thr ip ts i =
      if i < ts.length then
        if ((grow w ts i i - i + 1 : Nat) : Int) ≥ thr then
          ⟨ip, grow w ts i i - i + 1, nth ts i, nth ts (grow w ts i i)⟩ ::
            detectLoop w thr ip ts (grow w ts i i + 1)
        else
          detectLoop w thr ip ts (i + 1)
      else [] := by
  rw [detectLoop]

/-- The incidents are exactly the cluster ranges, rendered as incident
records. -/
theorem detectLoop_eq_map (w thr : Int) (ip : String) (ts : List Int) :
    ∀ i, detectLoop w thr ip ts i =
      (detectRanges w thr ts i).map
        (fun p => ⟨ip, p.2 - p.1 + 1, nth ts p.1, nth ts p.2⟩) := by
  apply detectRanges.induct w thr ts
    (fun i => detectLoop w thr ip ts i =
      (detectRanges w thr ts i).map
        (fun p => ⟨ip, p.2 - p.1 + 1, nth ts p.1, nth ts p.2⟩))
  · intro i h1 h2 ih
    rw [detectLoop_eq, detectRanges_eq, if_pos h1, if_pos h1, if_pos h2, if_pos h2,
      List.map_cons, ih]
  · intro i h1 h2 ih
    rw [detectLoop_eq, detectRanges_eq, if_pos h1, if_pos h1, if_neg h2, if_neg h2, ih]
  · intro i h1
    rw [detectLoop_eq, detectRanges_eq, if_neg h1, if_neg h1, List.map_nil]

theorem brute_force_fst (m : List (String × List Int)) (mm thr : Int) :
    (brute_force m mm thr).1 =
      (m.map (fun p => detectOne (60 * mm) thr p.1 p.2)).flatten := by
  induction m with
  | nil => rfl
  | cons p rest ih =>
    simp [brute_force, detectOne, ih]

theorem brute_force_snd (m : List (String × List Int)) (mm thr : Int) :
    (brute_force m mm thr).2 = m.map (fun p => (p.1, sortInt p.2)) := by
  induction m with
  | nil => rfl
  | cons p rest ih =>
    simp [brute_force, ih]

/-- Every emitted cluster range starts no earlier than the scan start, is
well-formed (`i ≤ j`), ends inside the list, and meets the threshold. -/
theorem detectRanges_spec (w thr : Int) (ts : List Int) :
    ∀ i p, p ∈ detectRanges w thr ts i →
      i ≤ p.1 ∧ p.1 ≤ p.2 ∧ p.2 < ts.length ∧ ((p.2 - p.1 + 1 : Nat) : Int) ≥ thr := by
  apply detectRanges.induct w thr ts
    (fun i => ∀ p, p ∈ detectRanges w thr ts i →
      i ≤ p.1 ∧ p.1 ≤ p.2 ∧ p.2 < ts.length ∧ ((p.2 - p.1 + 1 : Nat) : Int) ≥ thr)
  · intro i h1 h2 ih p hp
    rw [detectRanges_eq, if_pos h1, if_pos h2] at hp
    rcases List.mem_cons.mp hp with heq | hmem
    · subst heq
      exact ⟨le_refl i, le_grow w ts i i, grow_lt_length w ts i i h1, h2⟩
    · have := ih p hmem
      have hle := le_grow w ts i i
      exact ⟨by omega, this.2⟩
  · intro i h1 h2 ih p hp
    rw [detectRanges_eq, if_pos h1, if_neg h2] at hp
    have := ih p hp
    exact ⟨by omega, this.2⟩
  · intro i h1 p hp
    rw [detectRanges_eq, if_neg h1] at hp
    exact absurd hp (List.not_mem_nil p)

/-- Emitted cluster ranges are chained: each cluster ends strictly before
the next one starts. -/
theorem detectRanges_chained (w thr : Int) (ts : List Int) :
    ∀ i, (detectRanges w thr ts i).Pairwise (fun p q => p.2 < q.1) := by
  apply detectRanges.induct w thr ts
    (fun i => (detectRanges w thr ts i).Pairwise (fun p q => p.2 < q.1))
  · intro i h1 h2 ih
    rw [detectRanges_eq, if_pos h1, if_pos h2]
    refine List.pairwise_cons.mpr ⟨?_, ih⟩
    intro q hq
    have := detectRanges_spec w thr ts (grow w ts i i + 1) q hq
    omega
  · intro i h1 h2 ih
    rw [detectRanges_eq, if_pos h1, if_neg h2]
    exact ih
  · intro i h1
    rw [detectRanges_eq, if_neg h1]
    exact List.Pairwise.nil

theorem growFuel_eq_grow (w : Int) (ts : List Int) (i : Nat) :
    ∀ fuel j, ts.length - j < fuel → growFuel w ts i fuel j = some (grow w ts i j) := by
  intro fuel
  induction fuel with
  | zero =>
    intro j hj
    omega
  | succ fuel ih =>
    intro j hj
    by_cases h : j + 1 < ts.length ∧ nth ts (j + 1) - nth ts i ≤ w
    · rw [growFuel, if_pos h, grow_eq, if_pos h]
      exact ih (j + 1) (by omega)
    · rw [growFuel, if_neg h, grow_eq, if_neg h]

theorem detectLoopFuel_eq_detectLoop (w thr : Int) (ip : String) (ts : List Int) :
    ∀ fuel i, ts.length - i < fuel →
      detectLoopFuel w thr ip ts fuel i = some (detectLoop w thr ip ts i) := by
  intro fuel
  induction fuel with
  | zero =>
    intro i hi
    omega
  | succ fuel ih =>
    intro i hi
    by_cases h1 : i < ts.length
    · rw [detectLoopFuel, if_pos h1, growFuel_eq_grow w ts i (ts.length + 1) i (by omega)]
      dsimp only
      have hle := le_grow w ts i i
      by_cases h2 : ((grow w ts i i - i + 1 : Nat) : Int) ≥ thr
      · rw [if_pos h2, ih (grow w ts i i + 1) (by omega)]
        dsimp only
        rw [detectLoop_eq w thr ip ts i, if_pos h1, if_pos h2]
      · rw [if_neg h2, ih (i + 1) (by omega), detectLoop_eq w thr ip ts i,
          if_pos h1, if_neg h2]
    · rw [detectLoopFuel, if_neg h1, detectLoop_eq w thr ip ts i, if_neg h1]

/-- Helper for evaluating the (well-founded) loop on concrete inputs via the
(kernel-computable) fuel version. -/
theorem detectLoop_of_fuel (w thr : Int) (ip : String) (ts : List Int) (out : List Incident)
    (h : detectLoopFuel w thr ip ts (ts.length + 1) 0 = some out) :
    detectLoop w thr ip ts 0 = out := by
  have := detectLoopFuel_eq_detectLoop w thr ip ts (ts.length + 1) 0 (by omega)
  rw [this] at h
  exact Option.some.inj h

/-- C1: for every timestamp list and threshold at least 1, every incident
emitted by the burst detector comes from a cluster `[i, j]` of the sorted
timestamps with `count = j - i + 1`, `count ≥ threshold`,
`first = timestamps[i]`, `last = timestamps[j]`, and `last ≥ first`. -/
theorem brute_force_incident_fields (w thr : Int) (ip : String) (ts : List Int)
    (hthr : (1 : Int) ≤ thr) :
    ∀ inc ∈ detectOne w thr ip ts, ∃ i j : Nat,
      i ≤ j ∧ j < (sortInt ts).length ∧ inc.count = j - i + 1 ∧
      thr ≤ (inc.count : Int) ∧ inc.first = nth (sortInt ts) i ∧
      inc.last = nth (sortInt ts) j ∧ inc.first ≤ inc.last := by
  intro inc hinc
  rw [detectOne, detectLoop_eq_map] at hinc
  rcases List.mem_map.mp hinc with ⟨p, hp, heq⟩
  have hspec := detectRanges_spec w thr (sortInt ts) 0 p hp
  subst heq
  refine ⟨p.1, p.2, hspec.2.1, hspec.2.2.1, rfl, ?_, rfl, rfl, ?_⟩
  · simpa using hspec.2.2.2
  · exact nth_mono (sortInt ts) (List.sorted_insertionSort (· ≤ ·) ts)
      hspec.2.1 hspec.2.2.1

/-- Witness for C1 at scenario A of the spec: five timestamps one minute
apart, a ten-minute window and threshold 5 produce the single incident
covering all five timestamps. -/
theorem brute_force_incident_fields_witness :
    (1 : Int) ≤ 5 ∧
    (⟨r"a", 5, 0, 240⟩ : Incident) ∈ detectOne 600 5 (r"a") [0, 60, 120, 180, 240] ∧
    ∃ i j : Nat,
      i ≤ j ∧ j < (sortInt [0, 60, 120, 180, 240]).length ∧
      (⟨r"a", 5, 0, 240⟩ : Incident).count = j - i + 1 ∧
      (5 : Int) ≤ ((⟨r"a", 5, 0, 240⟩ : Incident).count : Int) ∧
      (⟨r"a", 5, 0, 240⟩ : Incident).first = nth (sortInt [0, 60, 120, 180, 240]) i ∧
      (⟨r"a", 5, 0, 240⟩ : Incident).last = nth (sortInt [0, 60, 120, 180, 240]) j ∧
      (⟨r"a", 5, 0, 240⟩ : Incident).first ≤ (⟨r"a", 5, 0, 240⟩ : Incident).last := by
  have he : detectOne 600 5 (r"a") [0, 60, 120, 180, 240] = [⟨r"a", 5, 0, 240⟩] := by
    rw [detectOne]
    exact detectLoop_of_fuel _ _ _ _ _ (by rfl)
  have hmem : (⟨r"a", 5, 0, 240⟩ : Incident) ∈ detectOne 600 5 (r"a") [0, 60, 120, 180, 240] := by
    rw [he]
    exact List.mem_singleton.mpr rfl
  exact ⟨by norm_num,
    hmem,
    brute_force_incident_fields 600 5 (r"a") [0, 60, 120, 180, 240] (by norm_num) _ hmem⟩

/-- C2: per origin, the burst detector's incidents are exactly the cluster
ranges rendered in scan order; those ranges are chained (each cluster ends
strictly before the next begins), hence the `first` indices strictly
increase and no sorted-timestamp index belongs to two incidents; and each
range is well-formed and in bounds. -/
theorem detect_incidents_disjoint_ordered (w thr : Int) (ip : String) (ts : List Int) :
    detectOne w thr ip ts =
      (detectRanges w thr (sortInt ts) 0).map
        (fun p => ⟨ip, p.2 - p.1 + 1, nth (sortInt ts) p.1, nth (sortInt ts) p.2⟩) ∧
    (detectRanges w thr (sortInt ts) 0).Pairwise (fun p q => p.2 < q.1) ∧
    ∀ p ∈ detectRanges w thr (sortInt ts) 0, p.1 ≤ p.2 ∧ p.2 < (sortInt ts).length := by
  refine ⟨detectLoop_eq_map w thr ip (sortInt ts) 0,
    detectRanges_chained w thr (sortInt ts) 0, ?_⟩
  intro p hp
  have hspec := detectRanges_spec w thr (sortInt ts) 0 p hp
  exact ⟨hspec.2.1, hspec.2.2.1⟩

/-- C4: both while loops of the burst detector terminate for every input:
for every timestamp list, every threshold, and every window (zero and
negative included), the fuel-counted loops finish within `n + 1` iterations
and compute the loop results, never exhausting the fuel. -/
theorem detect_terminates :
    (∀ (w : Int) (ts : List Int) (i j : Nat),
      growFuel w ts i (ts.length + 1) j = some (grow w ts i j)) ∧
    ∀ (w thr : Int) (ip : String) (ts : List Int),
      detectLoopFuel w thr ip ts (ts.length + 1) 0 = some (detectLoop w thr ip ts 0) := by
  constructor
  · intro w ts i j
    exact growFuel_eq_grow w ts i (ts.length + 1) j (by omega)
  · intro w thr ip ts
    exact detectLoopFuel_eq_detectLoop w thr ip ts (ts.length + 1) 0 (by omega)

/-- Simultaneous induction on the scan position, for a sorted list:
(P) starting the scan one position later never yields more clusters, and
(B) starting the scan at `a` yields at most one cluster more than starting
just past any position `m` inside the cluster anchored at `a`. -/
theorem detectRanges_pos_mono (w t : Int) (ts : List Int) (hs : ts.Pairwise (· ≤ ·)) :
    ∀ d a, ts.length - a ≤ d →
      ((detectRanges w t ts (a + 1)).length ≤ (detectRanges w t ts a).length ∧
       ∀ m, a ≤ m → m ≤ grow w ts a a → a < ts.length →
         (detectRanges w t ts a).length ≤ 1 + (detectRanges w t ts (m + 1)).length) := by
  intro d
  induction d with
  | zero =>
    intro a ha
    constructor
    · rw [detectRanges_eq w t ts (a + 1), if_neg (by omega),
        detectRanges_eq w t ts a, if_neg (by omega)]
    · intro m _ _ hlt
      omega
  | succ d ih =>
    intro a ha
    by_cases hlen : a < ts.length
    case neg =>
      constructor
      · rw [detectRanges_eq w t ts (a + 1), if_neg (by omega),
          detectRanges_eq w t ts a, if_neg hlen]
      · intro m _ _ hlt
        exact absurd hlt hlen
    case pos =>
    have hJle := le_grow w ts a a
    have hJlt := grow_lt_length w ts a a hlen
    have chain : ∀ k x, a < x →
        (detectRanges w t ts (x + k)).length ≤ (detectRanges w t ts x).length := by
      intro k
      induction k with
      | zero =>
        intro x hx
        exact le_refl _
      | succ k ihk =>
        intro x hx
        have h1 : (detectRanges w t ts (x + k + 1)).length ≤
            (detectRanges w t ts (x + k)).length :=
          (ih (x + k) (by omega)).1
        exact le_trans h1 (ihk x hx)
    constructor
    · rw [detectRanges_eq w t ts a, if_pos hlen]
      by_cases hc : ((grow w ts a a - a + 1 : Nat) : Int) ≥ t
      · rw [if_pos hc]
        simp only [List.length_cons]
        by_cases ha1 : a + 1 < ts.length
        · by_cases hJa : grow w ts a a = a
          · rw [hJa]
            omega
          · have hB := (ih (a + 1) (by omega)).2 (grow w ts a a) (by omega)
              (grow_mono w ts hs a (a + 1) (by omega) ha1) ha1
            omega
        · rw [detectRanges_eq w t ts (a + 1), if_neg ha1]
          simp
      · rw [if_neg hc]
    · intro m ham hmJ hlt
      rw [detectRanges_eq w t ts a, if_pos hlen]
      by_cases hc : ((grow w ts a a - a + 1 : Nat) : Int) ≥ t
      · rw [if_pos hc]
        simp only [List.length_cons]
        have hchain := chain (grow w ts a a - m) (m + 1) (by omega)
        have harith : m + 1 + (grow w ts a a - m) = grow w ts a a + 1 := by omega
        rw [harith] at hchain
        omega
      · rw [if_neg hc]
        rcases Nat.eq_or_lt_of_le ham with heq | hmlt
        · subst heq
          omega
        · have ha1 : a + 1 < ts.length := by omega
          exact (ih (a + 1) (by omega)).2 m (by omega)
            (le_trans hmJ (grow_mono w ts hs a (a + 1) (by omega) ha1)) ha1

/-- On a sorted list, raising the threshold never increases the number of
emitted clusters, from any scan position. -/
theorem detectRanges_thr_mono (w : Int) (ts : List Int) (hs : ts.Pairwise (· ≤ ·))
    (t1 t2 : Int) (h12 : t1 ≤ t2) :
    ∀ d i, ts.length - i ≤ d →
      (detectRanges w t2 ts i).length ≤ (detectRanges w t1 ts i).length := by
  intro d
  induction d with
  | zero =>
    intro i hi
    rw [detectRanges_eq w t2 ts i, if_neg (by omega),
      detectRanges_eq w t1 ts i, if_neg (by omega)]
  | succ d ih =>
    intro i hi
    by_cases hlen : i < ts.length
    · have hJle := le_grow w ts i i
      by_cases hc2 : ((grow w ts i i - i + 1 : Nat) : Int) ≥ t2
      · have hc1 : ((grow w ts i i - i + 1 : Nat) : Int) ≥ t1 := le_trans h12 hc2
        rw [detectRanges_eq w t2 ts i, if_pos hlen, if_pos hc2,
          detectRanges_eq w t1 ts i, if_pos hlen, if_pos hc1]
        simp only [List.length_cons]
        have := ih (grow w ts i i + 1) (by omega)
        omega
      · by_cases hc1 : ((grow w ts i i - i + 1 : Nat) : Int) ≥ t1
        · rw [detectRanges_eq w t2 ts i, if_pos hlen, if_neg hc2]
          have h1 := ih (i + 1) (by omega)
          have h2 := (detectRanges_pos_mono w t1 ts hs ts.length i (by omega)).1
          omega
        · rw [detectRanges_eq w t2 ts i, if_pos hlen, if_neg hc2,
            detectRanges_eq w t1 ts i, if_pos hlen, if_neg hc1]
          exact ih (i + 1) (by omega)
    · rw [detectRanges_eq w t2 ts i, if_neg hlen, detectRanges_eq w t1 ts i, if_neg hlen]

/-- C3: for a fixed timestamp list and window, raising the threshold never
increases the number of incidents returned by the burst detector. -/
theorem detect_threshold_monotone (w t1 t2 : Int) (ip : String) (ts : List Int)
    (h12 : t1 ≤ t2) :
    (detectOne w t2 ip ts).length ≤ (detectOne w t1 ip ts).length := by
  rw [detectOne, detectOne, detectLoop_eq_map, detectLoop_eq_map,
    List.length_map, List.length_map]
  exact detectRanges_thr_mono w (sortInt ts) (List.sorted_insertionSort (· ≤ ·) ts)
    t1 t2 h12 (sortInt ts).length 0 (by omega)

/-- Witness for C3 at a concrete input: thresholds 1 ≤ 2 on two timestamps
a minute apart with a ten-minute window. -/
theorem detect_threshold_monotone_witness :
    (1 : Int) ≤ 2 ∧
    (detectOne 600 2 (r"a") [0, 60]).length ≤ (detectOne 600 1 (r"a") [0, 60]).length :=
  ⟨by norm_num, detect_threshold_monotone 600 1 2 (r"a") [0, 60] (by norm_num)⟩

/-- Counterexample to C5: nothing in the program rejects a non-positive
configuration.  Called with window `-1` minutes and threshold `0`,
`brute_force` executes detection normally and returns two incidents —
there is no `ConfigError`, no validation, and no error channel at all. -/
theorem no_config_validation_cex :
    (brute_force [(r"a", [5, 5])] (-1) 0).1 =
      [⟨r"a", 1, 5, 5⟩, ⟨r"a", 1, 5, 5⟩] ∧
    (brute_force [(r"a", [5, 5])] (-1) 0).1 ≠ [] := by
  have h : detectLoopFuel (-60) 0 (r"a") (sortInt [5, 5])
      ((sortInt [5, 5]).length + 1) 0 = some [⟨r"a", 1, 5, 5⟩, ⟨r"a", 1, 5, 5⟩] := by rfl
  have h2 := detectLoop_of_fuel _ _ _ _ _ h
  constructor
  · rw [brute_force]
    simp only [brute_force]
    rw [show (60 * (-1) : Int) = -60 by norm_num, h2]
    rfl
  · rw [brute_force]
    simp only [brute_force]
    rw [show (60 * (-1) : Int) = -60 by norm_num, h2]
    decide

/-- C5 (amended): the code contains no configuration validation —
`brute_force` runs detection for any threshold and window, non-positive
values included, returning an ordinary incident list rather than an
error — while the one call site in `main` passes the fixed positive
constants `threshold=5` and `max_minutes=10`. -/
theorem no_config_validation :
    (∀ m : List (String × List Int), mainIncidents m = (brute_force m 10 5).1) ∧
    (0 : Int) < MAIN_THRESHOLD ∧ (0 : Int) < MAIN_MAX_MINUTES ∧
    (brute_force [(r"a", [5, 5])] (-1) 0).1.length = 2 := by
  refine ⟨fun m => rfl, by norm_num [MAIN_THRESHOLD], by norm_num [MAIN_MAX_MINUTES], ?_⟩
  have h : detectLoopFuel (-60) 0 (r"a") (sortInt [5, 5])
      ((sortInt [5, 5]).length + 1) 0 = some [⟨r"a", 1, 5, 5⟩, ⟨r"a", 1, 5, 5⟩] := by rfl
  have h2 := detectLoop_of_fuel _ _ _ _ _ h
  rw [brute_force]
  simp only [brute_force]
  rw [show (60 * (-1) : Int) = -60 by norm_num, h2]
  rfl

/-- Counterexample to C7: `brute_force` does not leave its input mapping
unchanged — `times.sort()` reorders each timestamp list in place, so after
the call the unsorted list `[2, 1]` has become `[1, 2]`. -/
theorem detect_mutates_input_cex :
    (brute_force [(r"a", [2, 1])] 10 5).2 = [(r"a", [1, 2])] ∧
    (brute_force [(r"a", [2, 1])] 10 5).2 ≠ [(r"a", [2, 1])] := by
  constructor
  · rw [brute_force_snd]
    rfl
  · rw [brute_force_snd]
    decide

/-- C7 (amended): `brute_force` sorts every timestamp list of the input
mapping in place: afterwards the mapping holds the same origins in the same
order, each list replaced by its ascending sort — a permutation of the
original contents — rather than being left untouched. -/
theorem detect_sorts_in_place (m : List (String × List Int)) (mm thr : Int) :
    (brute_force m mm thr).2 = m.map (fun p => (p.1, sortInt p.2)) ∧
    ∀ l : List Int, (sortInt l).Perm l ∧ (sortInt l).Pairwise (· ≤ ·) := by
  refine ⟨brute_force_snd m mm thr, fun l => ⟨List.perm_insertionSort (· ≤ ·) l,
    List.sorted_insertionSort (· ≤ ·) l⟩⟩

theorem mem_insertDesc (x z : String × Nat) :
    ∀ l, z ∈ insertDesc x l → z = x ∨ z ∈ l := by
  intro l
  induction l with
  | nil =>
    intro h
    rcases List.mem_singleton.mp h with h
    exact Or.inl h
  | cons y ys ih =>
    intro h
    rw [insertDesc] at h
    split at h
    · rcases List.mem_cons.mp h with h | h
      · exact Or.inl h
      · exact Or.inr h
    · rcases List.mem_cons.mp h with h | h
      · exact Or.inr (List.mem_cons.mpr (Or.inl h))
      · rcases ih h with h | h
        · exact Or.inl h
        · exact Or.inr (List.mem_cons.mpr (Or.inr h))

theorem insertDesc_sorted (x : String × Nat) :
    ∀ l, l.Pairwise (fun a b => b.2 ≤ a.2) →
      (insertDesc x l).Pairwise (fun a b => b.2 ≤ a.2) := by
  intro l
  induction l with
  | nil =>
    intro _
    exact List.pairwise_singleton _ x
  | cons y ys ih =>
    intro hp
    rcases List.pairwise_cons.mp hp with ⟨hy, hys⟩
    rw [insertDesc]
    split
    next hle =>
      refine List.pairwise_cons.mpr ⟨?_, hp⟩
      intro z hz
      rcases List.mem_cons.mp hz with h | h
      · subst h
        exact hle
      · exact le_trans (hy z h) hle
    next hgt =>
      refine List.pairwise_cons.mpr ⟨?_, ih hys⟩
      intro z hz
      rcases mem_insertDesc x z ys hz with h | h
      · subst h
        omega
      · exact hy z h

theorem sortDesc_sorted : ∀ l, (sortDesc l).Pairwise (fun a b => b.2 ≤ a.2) := by
  intro l
  induction l with
  | nil => exact List.Pairwise.nil
  | cons x xs ih => exact insertDesc_sorted x (sortDesc xs) ih

theorem insertDesc_filter (v : Nat) (x : String × Nat) :
    ∀ l, (insertDesc x l).filter (fun p => p.2 == v) =
      ((x :: l).filter (fun p => p.2 == v) : List (String × Nat)) := by
  intro l
  induction l with
  | nil => rfl
  | cons y ys ih =>
    rw [insertDesc]
    split
    next hle => rfl
    next hgt =>
      by_cases hxv : x.2 = v
      · have hyv : ¬(y.2 = v) := by omega
        simp only [List.filter_cons, hxv, hyv, beq_self_eq_true, beq_iff_eq, if_true,
          if_false, ih]
      · by_cases hyv : y.2 = v
        · simp only [List.filter_cons, beq_iff_eq, hxv, hyv, if_false, if_true, ih]
        · simp only [List.filter_cons, beq_iff_eq, hxv, hyv, if_false, ih]

theorem sortDesc_filter (v : Nat) :
    ∀ l : List (String × Nat),
      (sortDesc l).filter (fun p => p.2 == v) = l.filter (fun p => p.2 == v) := by
  intro l
  induction l with
  | nil => rfl
  | cons x xs ih =>
    rw [sortDesc, insertDesc_filter v x (sortDesc xs)]
    simp only [List.filter_cons, ih]

/-- Counterexample to C8: the raw-count fallback is silent and unlabelled.
A run that found one incident of count 5 and a run that found no incidents
but five raw failed attempts hand the caller the exact same ranked summary,
so the caller cannot distinguish incident totals from raw attempt counts. -/
theorem fallback_indistinguishable_cex :
    top_attackers [⟨r"a", 5, 0, 240⟩] [(r"a", [0, 60, 120, 180, 240])] =
      top_attackers [] [(r"a", [10, 20, 30, 40, 50])] ∧
    summarize [⟨r"a", 5, 0, 240⟩] [(r"a", [0, 60, 120, 180, 240])] =
      summarize [] [(r"a", [10, 20, 30, 40, 50])] ∧
    ([⟨r"a", 5, 0, 240⟩] : List Incident) ≠ [] ∧
    buildSummary [] = [] := by
  exact ⟨rfl, rfl, by decide, rfl⟩

/-- C8 (amended): when no incidents exist but failed-attempt data does, the
aggregator silently substitutes the raw per-origin failed-attempt totals
into the very same `summary` value, with no label or flag distinguishing
the two modes. -/
theorem fallback_raw_counts (perIp : List (String × List Int)) (h : perIp ≠ []) :
    summarize [] perIp = perIp.map (fun p => (p.1, p.2.length)) := by
  rw [summarize, if_pos ⟨rfl, h⟩]

/-- Witness for the amended C8 on a one-origin mapping. -/
theorem fallback_raw_counts_witness :
    ([(r"a", [1])] : List (String × List Int)) ≠ [] ∧
    summarize [] [(r"a", [1])] =
      ([(r"a", [1])] : List (String × List Int)).map (fun p => (p.1, p.2.length)) :=
  ⟨by decide, fallback_raw_counts [(r"a", [1])] (by decide)⟩

/-- C9: ranking a fixed incident list is deterministic and stable — the
`top_attackers` order is descending in the total, and among entries with
equal totals the order of `summary` (origins in first-seen order) is
preserved exactly. -/
theorem aggregate_sorted_stable (incs : List Incident) :
    (sortDesc (buildSummary incs)).Pairwise (fun a b => b.2 ≤ a.2) ∧
    ∀ v : Nat, (sortDesc (buildSummary incs)).filter (fun p => p.2 == v) =
      (buildSummary incs).filter (fun p => p.2 == v) :=
  ⟨sortDesc_sorted (buildSummary incs), fun v => sortDesc_filter v (buildSummary incs)⟩

/-- Counterexample to C6: for the origin token `,1.2.3.4`, stripping only
trailing `,`/`;` (as the claim states) leaves it unchanged, but
`parse_auth_line` — which uses Python's both-ends `strip(",;")` — returns
`1.2.3.4` with the leading comma removed. -/
theorem origin_strip_cex :
    (parse_auth_line cexLine).2.1 = some (r"1.2.3.4") ∧
    stripTrailingOnly (String.toList (r",1.2.3.4")) = String.toList (r",1.2.3.4") ∧
    (parse_auth_line cexLine).2.1 ≠ some (r",1.2.3.4") := by
  refine ⟨rfl, rfl, ?_⟩
  intro h
  rw [show (parse_auth_line cexLine).2.1 = some (r"1.2.3.4") from rfl] at h
  exact absurd (Option.some.inj h) (by decide)

theorem findIdx_originScan (parts : List (List Char)) :
    (if parts.findIdx (fun t => t == fromTok.toList) + 1 < parts.length then
      some (String.mk (stripBoth (parts.getD
        (parts.findIdx (fun t => t == fromTok.toList) + 1) [])))
    else none) =
      match originScan parts with
      | some tok => some (String.mk (stripBoth tok))
      | none => none := by
  induction parts with
  | nil => rfl
  | cons t rest ih =>
    by_cases ht : (t == fromTok.toList) = true
    · have hscan : originScan (t :: rest) = rest.head? := by
        rw [originScan, if_pos ht]
      rw [hscan]
      simp only [List.findIdx_cons, ht, cond_true, List.length_cons, List.getD_cons_succ]
      match rest with
      | [] => rfl
      | r :: rs =>
        simp only [List.length_cons, List.getD_cons_zero, List.head?_cons]
        rw [if_pos (by omega : 0 + 1 < rs.length + 1 + 1)]
    · have ht2 : (t == fromTok.toList) = false := by
        simpa using ht
      have hscan : originScan (t :: rest) = originScan rest := by
        rw [originScan, if_neg ht]
      rw [hscan, ← ih]
      simp only [List.findIdx_cons, ht2, cond_false, List.length_cons, List.getD_cons_succ]
      by_cases hlt : rest.findIdx (fun t => t == fromTok.toList) + 1 < rest.length
      · rw [if_pos (by omega), if_pos hlt]
      · rw [if_neg (by omega), if_neg hlt]

/-- C6 (amended): whenever the timestamp parses, the origin returned by
`parse_auth_line` is exactly `extractOrigin`: present iff the line contains
the substring `" from "` and a token follows the first `"from"` token, in
which case it is that token with `,`/`;` stripped from BOTH ends. -/
theorem origin_extraction (line : String) (ts : Int) (ip : Option String) (ev : EvType)
    (heq : parse_auth_line line = (some ts, ip, ev)) :
    ip = extractOrigin line := by
  unfold parse_auth_line at heq
  split at heq
  · simp only [Prod.mk.injEq] at heq
    exact absurd heq.1 (Option.noConfusion)
  · split at heq
    next =>
      simp only [Prod.mk.injEq] at heq
      exact absurd heq.1 (Option.noConfusion)
    next ts0 hts0 =>
      simp only [Prod.mk.injEq] at heq
      rw [← heq.2.1]
      rw [extractOrigin]
      split
      next hc => exact findIdx_originScan (splitWs line.toList)
      next hc => rfl

/-- Witness for the amended C6 at scenario E of the spec. -/
theorem origin_extraction_witness :
    parse_auth_line lineE = (some 5925481, some (r"203.0.113.45"), EvType.failed) ∧
    some (r"203.0.113.45") = extractOrigin lineE :=
  ⟨rfl, origin_extraction lineE 5925481 (some (r"203.0.113.45")) EvType.failed rfl⟩

/-- C10: `parse_auth_line` is total — it returns a triple for every input
string — and whenever the timestamp component is `none` (too few tokens, or
an invalid calendar timestamp), the origin is `none` and the kind is
`other`. -/
theorem parse_total_none (line : String) (ts : Option Int) (ip : Option String)
    (ev : EvType) (heq : parse_auth_line line = (ts, ip, ev)) (hts : ts = none) :
    ip = none ∧ ev = EvType.other := by
  subst hts
  unfold parse_auth_line at heq
  split at heq
  · simp only [Prod.mk.injEq] at heq
    exact ⟨heq.2.1.symm, heq.2.2.symm⟩
  · split at heq
    next =>
      simp only [Prod.mk.injEq] at heq
      exact ⟨heq.2.1.symm, heq.2.2.symm⟩
    next ts0 hts0 =>
      simp only [Prod.mk.injEq] at heq
      exact absurd heq.1 (Option.noConfusion)

/-- Witness for C10 at the empty line. -/
theorem parse_total_none_witness :
    parse_auth_line emptyLine = (none, none, EvType.other) ∧
    ((none : Option Int) = none) ∧
    ((none : Option String) = none ∧ EvType.other = EvType.other) :=
  ⟨rfl, rfl, parse_total_none emptyLine none none EvType.other rfl rfl⟩
